import Mathlib

set_option maxRecDepth 8192

/-!
Verification of the presence-inference core of the `tpms` repository.

The Python function `detect_home_intervals` (src/tpms.py, lines 159-210) is
embedded shallowly.  Timestamps are modelled as integers counting
microseconds since an arbitrary epoch — exactly the resolution of Python
`datetime` values, so `t.replace(second=0, microsecond=0)` becomes flooring
to the 60 000 000 µs grid.  The `while t < end` loop is modelled by a
fuel-indexed iterator `runLoop`; the fuel supplied by `detect_home_intervals`
is the whole time-span in microseconds, which strictly exceeds the number of
iterations whenever the step is positive, so `runLoop` returns `none` exactly
when the Python loop would still be running after the fuel is spent — with a
non-positive step the loop variable never advances past `end`, hence `none`
models the Python loop's divergence.
-/

/-- Microseconds per second, the unit of `timedelta(seconds=...)`. -/
def usecPerSec : Int := 1000000

/-- Microseconds per minute, the unit of `timedelta(minutes=...)`. -/
def usecPerMin : Int := 60000000

/-- `t.replace(second=0, microsecond=0)` for a `datetime` encoded as
microseconds: floor `t` to the 60-second grid (src/tpms.py lines 174, 175,
179). -/
def minuteFloor (t : Int) : Int := (t.fdiv usecPerMin) * usecPerMin

/-- The `evidence` defaultdict of src/tpms.py lines 177-180: how many events
of `times` fall into the minute-truncated bin `b`.  Looking up a key that was
never inserted yields `0`, as `defaultdict(int)` does. -/
def evidenceCount (times : List Int) (b : Int) : Nat :=
  times.countP (fun x => minuteFloor x == b)

/-- The loop-local state of `detect_home_intervals` apart from the loop
variable `t`: `in_home`, `first_seen`, `last_seen`, `intervals`
(src/tpms.py lines 183-186). -/
structure HomeSt where
  inHome : Bool
  firstSeen : Option Int
  lastSeen : Option Int
  intervals : List (Int × Int)
deriving Repr, DecidableEq

/-- One iteration of the `while` body of `detect_home_intervals`
(src/tpms.py lines 190-203), at loop variable `t`.  The `firstSeen.getD 0`
in the close branch is only evaluated when `inHome` is set, in which case
`first_seen` is never `None` in the Python code. -/
def stepBin (times : List Int) (window t : Int) (c : HomeSt) : HomeSt :=
  let c1 :=
    if 0 < evidenceCount times t then
      if c.inHome then { c with lastSeen := some t }
      else { c with inHome := true, firstSeen := some t, lastSeen := some t }
    else c
  if c1.inHome then
    match c1.lastSeen with
    | some ls =>
      if window < t - ls then
        { inHome := false, firstSeen := none, lastSeen := none,
          intervals := c1.intervals ++ [(c1.firstSeen.getD 0, ls)] }
      else c1
    | none => c1
  else c1

/-- The `while t < end` loop of src/tpms.py lines 188-205, with explicit
fuel.  `none` means the fuel was exhausted with the loop guard still true,
i.e. the Python loop would still be running. -/
def runLoop (times : List Int) (window step endT : Int) :
    Nat → Int → HomeSt → Option HomeSt
  | 0, t, c => if t < endT then none else some c
  | n + 1, t, c =>
    if t < endT then
      runLoop times window step endT n (t + step) (stepBin times window t c)
    else some c

/-- The final close of src/tpms.py lines 207-208: `if in_home and first_seen
is not None and last_seen is not None: intervals.append(...)`. -/
def closeList (c : HomeSt) : List (Int × Int) :=
  match c.inHome, c.firstSeen, c.lastSeen with
  | true, some fs, some ls => c.intervals ++ [(fs, ls)]
  | _, _, _ => c.intervals

/-- Shallow embedding of `detect_home_intervals` (src/tpms.py lines
159-210).  `some l` is the returned interval list; `none` marks the case in
which the Python loop never terminates (possible only for a non-positive
`bin_seconds`, see `runLoop`). -/
def detect_home_intervals (times : List Int) (bin_seconds : Int)
    (window_minutes : Int) : Option (List (Int × Int)) :=
  match times with
  | [] => some []
  | t0 :: rest =>
    let start := minuteFloor t0
    let endT := minuteFloor ((t0 :: rest).getLast (List.cons_ne_nil t0 rest)) + usecPerMin
    let window := window_minutes * usecPerMin
    let step := bin_seconds * usecPerSec
    match runLoop (t0 :: rest) window step endT (endT - start).toNat start
        { inHome := false, firstSeen := none, lastSeen := none, intervals := [] } with
    | none => none
    | some c => some (closeList c)

/-- The spec's alignment rule, stated in its own words for comparison with
the code's binning: "a timestamp `t` belongs to bin `floor((t - epoch) / Δ) * Δ`"
(spec §4.1), with `delta` in microseconds. -/
def specBinStart (t delta : Int) : Int := (t.fdiv delta) * delta

/-- The sequence of values taken by the loop variable `t` of
`detect_home_intervals` (src/tpms.py lines 188-189, 205): the bin timeline
the detector steps through.  Fuel-indexed like `runLoop`; the fuel passed by
`timeline` exceeds the iteration count whenever the step is positive. -/
def timelineAux (step endT : Int) : Nat → Int → List Int
  | 0, _ => []
  | n + 1, t => if t < endT then t :: timelineAux step endT n (t + step) else []

/-- The bin timeline visited by `detect_home_intervals` for the given events
and `bin_seconds` (src/tpms.py lines 174-175, 188-189, 205). -/
def timeline (times : List Int) (bin_seconds : Int) : List Int :=
  match times with
  | [] => []
  | t0 :: rest =>
    let start := minuteFloor t0
    let endT := minuteFloor ((t0 :: rest).getLast (List.cons_ne_nil t0 rest)) + usecPerMin
    timelineAux (bin_seconds * usecPerSec) endT (endT - start).toNat start

/-- With a non-positive step the loop variable never advances, so the loop
guard of src/tpms.py line 189 stays true for ever: no amount of fuel makes
`runLoop` return. -/
theorem runLoop_none_of_nonpos (times : List Int) (window step endT : Int)
    (hstep : step ≤ 0) :
    ∀ (n : Nat) (t : Int) (c : HomeSt), t < endT →
      runLoop times window step endT n t c = none := by
  intro n
  induction n with
  | zero => intro t c ht; simp [runLoop, ht]
  | succ n ih =>
    intro t c ht
    simp only [runLoop, if_pos ht]
    exact ih (t + step) _ (by omega)

/-- If the loop returns a value although at least one iteration ran, the
step must be positive. -/
theorem runLoop_pos_step (times : List Int) (window step endT : Int) :
    ∀ (n : Nat) (t : Int) (c : HomeSt) (r : HomeSt), t < endT →
      runLoop times window step endT n t c = some r → 1 ≤ step := by
  intro n
  induction n with
  | zero => intro t c r ht h; simp [runLoop, ht] at h
  | succ n ih =>
    intro t c r ht h
    simp only [runLoop, if_pos ht] at h
    by_cases ht' : t + step < endT
    · exact ih (t + step) _ r ht' h
    · omega

/-- On a non-empty input whose stepping loop has at least one bin to visit,
a non-positive `bin_seconds` makes `detect_home_intervals` diverge: in the
embedding, `none`. -/
theorem detect_nonpos_step_none (t0 : Int) (rest : List Int) (b w : Int)
    (hb : b ≤ 0)
    (hlt : minuteFloor t0 <
      minuteFloor ((t0 :: rest).getLast (List.cons_ne_nil t0 rest)) + usecPerMin) :
    detect_home_intervals (t0 :: rest) b w = none := by
  have hstep : b * usecPerSec ≤ 0 := by
    have h := mul_le_mul_of_nonneg_right hb (show (0:Int) ≤ usecPerSec by decide)
    simpa using h
  simp only [detect_home_intervals]
  rw [runLoop_none_of_nonpos _ _ _ _ hstep _ _ _ hlt]

/-- Invariant of the stepping loop at loop variable `t`: the closed
intervals are well-formed, strictly separated, end strictly before `t`, and
end at bins holding evidence; while `in_home` is set, `first_seen` and
`last_seen` are set, ordered, bounded by `t`, `last_seen` is an evidence
bin, and every closed interval ends strictly before `first_seen`. -/
structure LoopInv (times : List Int) (t : Int) (c : HomeSt) : Prop where
  pairLe : ∀ p ∈ c.intervals, p.1 ≤ p.2
  sep : c.intervals.Pairwise (fun p q => p.2 < q.1)
  endsLt : ∀ p ∈ c.intervals, p.2 < t
  endsEv : ∀ p ∈ c.intervals, 0 < evidenceCount times p.2
  openInv : c.inHome = true → ∃ fs ls, c.firstSeen = some fs ∧ c.lastSeen = some ls ∧
    fs ≤ ls ∧ ls ≤ t ∧ 0 < evidenceCount times ls ∧ ∀ p ∈ c.intervals, p.2 < fs

/-- The part of `LoopInv` that survives once the loop has finished. -/
structure FinalInv (times : List Int) (c : HomeSt) : Prop where
  pairLe : ∀ p ∈ c.intervals, p.1 ≤ p.2
  sep : c.intervals.Pairwise (fun p q => p.2 < q.1)
  endsEv : ∀ p ∈ c.intervals, 0 < evidenceCount times p.2
  openInv : c.inHome = true → ∃ fs ls, c.firstSeen = some fs ∧ c.lastSeen = some ls ∧
    fs ≤ ls ∧ 0 < evidenceCount times ls ∧ ∀ p ∈ c.intervals, p.2 < fs

theorem LoopInv.toFinal {times : List Int} {t : Int} {c : HomeSt}
    (h : LoopInv times t c) : FinalInv times c :=
  ⟨h.pairLe, h.sep, h.endsEv, fun hh => by
    obtain ⟨fs, ls, h1, h2, h3, _, h5, h6⟩ := h.openInv hh
    exact ⟨fs, ls, h1, h2, h3, h5, h6⟩⟩

/-- One loop iteration preserves the invariant when the step is positive. -/
theorem stepBin_inv (times : List Int) (window step t : Int) (c : HomeSt)
    (hstep : 1 ≤ step) (h : LoopInv times t c) :
    LoopInv times (t + step) (stepBin times window t c) := by
  obtain ⟨pairLe, sep, endsLt, endsEv, openInv⟩ := h
  by_cases hseen : 0 < evidenceCount times t
  · cases hhome : c.inHome with
    | true =>
      obtain ⟨fs, ls, hfs, hls, hfls, hlst, hlsev, hends⟩ := openInv hhome
      by_cases hw : window < 0
      · have e : stepBin times window t c =
            { inHome := false, firstSeen := none, lastSeen := none,
              intervals := c.intervals ++ [(fs, t)] } := by
          simp [stepBin, hseen, hhome, hfs, sub_self, hw]
        rw [e]
        refine ⟨?_, ?_, ?_, ?_, by simp⟩
        · intro p hp
          rcases List.mem_append.mp hp with hp | hp
          · exact pairLe p hp
          · simp at hp; subst hp; omega
        · refine List.pairwise_append.mpr ⟨sep, by simp, ?_⟩
          intro a ha b hb
          simp at hb; subst hb
          exact hends a ha
        · intro p hp
          rcases List.mem_append.mp hp with hp | hp
          · have := endsLt p hp; omega
          · simp at hp; subst hp; omega
        · intro p hp
          rcases List.mem_append.mp hp with hp | hp
          · exact endsEv p hp
          · simp at hp; subst hp; exact hseen
      · have e : stepBin times window t c = { c with lastSeen := some t } := by
          simp [stepBin, hseen, hhome, sub_self, hw]
        rw [e]
        refine ⟨pairLe, sep, fun p hp => by have := endsLt p hp; omega,
          endsEv, fun _ => ⟨fs, t, hfs, rfl, by omega, by omega, hseen,
            fun p hp => hends p hp⟩⟩
    | false =>
      by_cases hw : window < 0
      · have e : stepBin times window t c =
            { inHome := false, firstSeen := none, lastSeen := none,
              intervals := c.intervals ++ [(t, t)] } := by
          simp [stepBin, hseen, hhome, sub_self, hw]
        rw [e]
        refine ⟨?_, ?_, ?_, ?_, by simp⟩
        · intro p hp
          rcases List.mem_append.mp hp with hp | hp
          · exact pairLe p hp
          · simp at hp; subst hp; omega
        · refine List.pairwise_append.mpr ⟨sep, by simp, ?_⟩
          intro a ha b hb
          simp at hb; subst hb
          exact endsLt a ha
        · intro p hp
          rcases List.mem_append.mp hp with hp | hp
          · have := endsLt p hp; omega
          · simp at hp; subst hp; omega
        · intro p hp
          rcases List.mem_append.mp hp with hp | hp
          · exact endsEv p hp
          · simp at hp; subst hp; exact hseen
      · have e : stepBin times window t c =
            { c with inHome := true, firstSeen := some t, lastSeen := some t } := by
          simp [stepBin, hseen, hhome, sub_self, hw]
        rw [e]
        exact ⟨pairLe, sep, fun p hp => by have := endsLt p hp; omega,
          endsEv, fun _ => ⟨t, t, rfl, rfl, le_refl t, by omega, hseen,
            fun p hp => endsLt p hp⟩⟩
  · cases hhome : c.inHome with
    | true =>
      obtain ⟨fs, ls, hfs, hls, hfls, hlst, hlsev, hends⟩ := openInv hhome
      by_cases hw : window < t - ls
      · have e : stepBin times window t c =
            { inHome := false, firstSeen := none, lastSeen := none,
              intervals := c.intervals ++ [(fs, ls)] } := by
          simp [stepBin, hseen, hhome, hfs, hls, hw]
        rw [e]
        refine ⟨?_, ?_, ?_, ?_, by simp⟩
        · intro p hp
          rcases List.mem_append.mp hp with hp | hp
          · exact pairLe p hp
          · simp at hp; subst hp; exact hfls
        · refine List.pairwise_append.mpr ⟨sep, by simp, ?_⟩
          intro a ha b hb
          simp at hb; subst hb
          exact hends a ha
        · intro p hp
          rcases List.mem_append.mp hp with hp | hp
          · have := endsLt p hp; omega
          · simp at hp; subst hp; omega
        · intro p hp
          rcases List.mem_append.mp hp with hp | hp
          · exact endsEv p hp
          · simp at hp; subst hp; exact hlsev
      · have e : stepBin times window t c = c := by
          simp [stepBin, hseen, hhome, hfs, hls, hw]
        rw [e]
        exact ⟨pairLe, sep, fun p hp => by have := endsLt p hp; omega,
          endsEv, fun _ => ⟨fs, ls, hfs, hls, hfls, by omega, hlsev, hends⟩⟩
    | false =>
      have e : stepBin times window t c = c := by
        simp [stepBin, hseen, hhome]
      rw [e]
      exact ⟨pairLe, sep, fun p hp => by have := endsLt p hp; omega,
        endsEv, fun hh => by rw [hhome] at hh; cases hh⟩

/-- The loop's result satisfies the surviving invariant. -/
theorem runLoop_inv (times : List Int) (window step endT : Int)
    (hstep : 1 ≤ step) :
    ∀ (n : Nat) (t : Int) (c r : HomeSt), LoopInv times t c →
      runLoop times window step endT n t c = some r → FinalInv times r := by
  intro n
  induction n with
  | zero =>
    intro t c r h hr
    by_cases ht : t < endT
    · simp [runLoop, ht] at hr
    · simp [runLoop, ht] at hr
      exact hr ▸ h.toFinal
  | succ n ih =>
    intro t c r h hr
    by_cases ht : t < endT
    · simp only [runLoop, if_pos ht] at hr
      exact ih (t + step) _ r (stepBin_inv times window step t c hstep h) hr
    · simp [runLoop, ht] at hr
      exact hr ▸ h.toFinal

/-- The final close preserves the interval-list properties. -/
theorem closeList_props (times : List Int) (c : HomeSt) (h : FinalInv times c) :
    (∀ p ∈ closeList c, p.1 ≤ p.2) ∧
    (closeList c).Pairwise (fun p q => p.2 < q.1) ∧
    ∀ p ∈ closeList c, 0 < evidenceCount times p.2 := by
  cases hh : c.inHome with
  | false =>
    have e : closeList c = c.intervals := by
      unfold closeList
      rw [hh]
    rw [e]
    exact ⟨h.pairLe, h.sep, h.endsEv⟩
  | true =>
    obtain ⟨fs, ls, hfs, hls, hfls, hlsev, hends⟩ := h.openInv hh
    have e : closeList c = c.intervals ++ [(fs, ls)] := by
      unfold closeList
      rw [hh, hfs, hls]
    rw [e]
    refine ⟨?_, ?_, ?_⟩
    · intro p hp
      rcases List.mem_append.mp hp with hp | hp
      · exact h.pairLe p hp
      · simp at hp; subst hp; exact hfls
    · refine List.pairwise_append.mpr ⟨h.sep, by simp, ?_⟩
      intro a ha b hb
      simp at hb; subst hb
      exact hends a ha
    · intro p hp
      rcases List.mem_append.mp hp with hp | hp
      · exact h.endsEv p hp
      · simp at hp; subst hp; exact hlsev

/-- Every interval list that `detect_home_intervals` returns is made of
well-formed, strictly separated intervals whose ends carry evidence. -/
theorem detect_final (times : List Int) (b w : Int) (l : List (Int × Int))
    (h : detect_home_intervals times b w = some l) :
    (∀ p ∈ l, p.1 ≤ p.2) ∧
    l.Pairwise (fun p q => p.2 < q.1) ∧
    ∀ p ∈ l, 0 < evidenceCount times p.2 := by
  match times with
  | [] =>
    simp [detect_home_intervals] at h
    subst h
    simp
  | t0 :: rest =>
    simp only [detect_home_intervals] at h
    set start := minuteFloor t0 with hstart
    set endT := minuteFloor ((t0 :: rest).getLast (List.cons_ne_nil t0 rest)) + usecPerMin
      with hendT
    set c0 : HomeSt :=
      { inHome := false, firstSeen := none, lastSeen := none, intervals := [] } with hc0
    have hinv0 : LoopInv (t0 :: rest) start c0 := by
      refine ⟨by simp [hc0], by simp [hc0], by simp [hc0], by simp [hc0], ?_⟩
      intro hh
      simp [hc0] at hh
    cases hr : runLoop (t0 :: rest) (w * usecPerMin) (b * usecPerSec) endT
        (endT - start).toNat start c0 with
    | none => rw [hr] at h; cases h
    | some c =>
      rw [hr] at h
      have hl : closeList c = l := by
        simpa using h
      by_cases hlt : start < endT
      · have hstep : 1 ≤ b * usecPerSec :=
          runLoop_pos_step (t0 :: rest) (w * usecPerMin) (b * usecPerSec) endT
            _ start c0 c hlt hr
        have hfin : FinalInv (t0 :: rest) c :=
          runLoop_inv (t0 :: rest) (w * usecPerMin) (b * usecPerSec) endT hstep
            _ start c0 c hinv0 hr
        exact hl ▸ closeList_props (t0 :: rest) c hfin
      · have hc : c = c0 := by
          cases hfuel : (endT - start).toNat with
          | zero => rw [hfuel] at hr; simp [runLoop, hlt] at hr; exact hr.symm
          | succ m => rw [hfuel] at hr; simp [runLoop, hlt] at hr; exact hr.symm
        subst hc
        have : closeList c0 = [] := by simp [closeList, hc0]
        rw [this] at hl
        subst hl
        simp

/-- C4: every interval that `detect_home_intervals` returns ends at a bin
in which an event was actually seen: the `end` is the minute bin of some
input timestamp (`last_seen` is only ever refreshed at seen bins,
src/tpms.py lines 192-196, and intervals close with `end = last_seen`,
lines 198-203 and 207-208), never `last_seen + window` and never an empty
bin. -/
theorem c4_interval_end_has_evidence (times : List Int) (b w : Int)
    (l : List (Int × Int)) (h : detect_home_intervals times b w = some l) :
    ∀ p ∈ l, ∃ x ∈ times, minuteFloor x = p.2 := by
  intro p hp
  have hev := (detect_final times b w l h).2.2 p hp
  rw [evidenceCount, List.countP_pos_iff] at hev
  obtain ⟨x, hx, hxe⟩ := hev
  exact ⟨x, hx, by simpa using hxe⟩

/-- C4 witness: events at minutes 0 and 1.5 produce the single interval
`[0, 60000000]`; the theorem applied there forces the event at 90000000 µs
to be the evidence for the interval end 60000000. -/
theorem c4_interval_end_has_evidence_witness : minuteFloor 90000000 = 60000000 := by
  obtain ⟨x, hx, he⟩ := c4_interval_end_has_evidence [0, 90000000] 60 10
    [(0, 60000000)] (by decide) (0, 60000000) (by decide)
  rcases List.mem_cons.mp hx with h | h
  · rw [h] at he
    exact absurd he (by decide)
  · simp only [List.mem_singleton] at h
    rw [h] at he
    exact he

/-- C5: every interval list returned by `detect_home_intervals` satisfies
the spec's invariants: each interval has `start ≤ end`, the list is
strictly ordered by `start`, intervals are pairwise non-overlapping, and
each interval's `end` strictly precedes the next interval's `start`. -/
theorem c5_intervals_ordered_disjoint (times : List Int) (b w : Int)
    (l : List (Int × Int)) (h : detect_home_intervals times b w = some l) :
    (∀ p ∈ l, p.1 ≤ p.2) ∧
    l.Pairwise (fun p q => p.1 < q.1) ∧
    l.Pairwise (fun p q => p.2 < q.1 ∨ q.2 < p.1) ∧
    l.Chain' (fun p q => p.2 < q.1) := by
  obtain ⟨hle, hsep, _⟩ := detect_final times b w l h
  refine ⟨hle, ?_, hsep.imp (fun hpq => Or.inl hpq), hsep.chain'⟩
  refine hsep.imp_of_mem ?_
  intro p q hp hq hpq
  have := hle p hp
  omega

/-- C5 witness: events at minutes 0, 1 and 50 produce two intervals, and
the ordering, disjointness and separation facts are discharged for them. -/
theorem c5_intervals_ordered_disjoint_witness :
    List.Pairwise (fun p q : Int × Int => p.1 < q.1)
      [((0:Int), (60000000:Int)), (3000000000, 3000000000)] ∧
    List.Pairwise (fun p q : Int × Int => p.2 < q.1 ∨ q.2 < p.1)
      [((0:Int), (60000000:Int)), (3000000000, 3000000000)] ∧
    List.Chain' (fun p q : Int × Int => p.2 < q.1)
      [((0:Int), (60000000:Int)), (3000000000, 3000000000)] :=
  (c5_intervals_ordered_disjoint [0, 60000000, 3000000000] 60 10
    [(0, 60000000), (3000000000, 3000000000)] (by decide)).2

/-- Unfolding: one iteration of the loop while the guard holds. -/
theorem runLoop_step (times : List Int) (window step endT : Int) (n : Nat)
    (t : Int) (c : HomeSt) (h : t < endT) :
    runLoop times window step endT (n + 1) t c =
      runLoop times window step endT n (t + step) (stepBin times window t c) := by
  simp [runLoop, h]

/-- Unfolding: the loop stops as soon as the guard fails, whatever the fuel. -/
theorem runLoop_stop (times : List Int) (window step endT : Int) (n : Nat)
    (t : Int) (c : HomeSt) (h : ¬t < endT) :
    runLoop times window step endT n t c = some c := by
  cases n <;> simp [runLoop, h]

/-- C10: on a single-element input `[t]` with the default parameters,
`detect_home_intervals` returns exactly one interval whose two endpoints
both equal `t` truncated to the whole minute (seconds and microseconds
zeroed, src/tpms.py lines 174, 179), not the raw timestamp `t`. -/
theorem c10_singleton_returns_minute_bin (t : Int) :
    detect_home_intervals [t] 60 10 = some [(minuteFloor t, minuteFloor t)] := by
  have hu : (0:Int) < usecPerMin := by decide
  have hsu : (60:Int) * usecPerSec = usecPerMin := by decide
  have hev1 : evidenceCount [t] (minuteFloor t) = 1 := by
    simp [evidenceCount]
  have estep : stepBin [t] (10 * usecPerMin) (minuteFloor t)
      { inHome := false, firstSeen := none, lastSeen := none, intervals := [] } =
      { inHome := true, firstSeen := some (minuteFloor t),
        lastSeen := some (minuteFloor t), intervals := [] } := by
    simp [stepBin, hev1, sub_self]
    decide
  simp only [detect_home_intervals, List.getLast_singleton]
  rw [show minuteFloor t + usecPerMin - minuteFloor t = usecPerMin by ring]
  rw [show usecPerMin.toNat = 59999999 + 1 from rfl]
  rw [runLoop_step _ _ _ _ _ _ _ (by omega)]
  rw [estep]
  rw [runLoop_stop _ _ _ _ _ _ _ (by omega)]
  simp [closeList]

/-- C1: the spec requires that events at minutes `0` and `W+1` produce two
separate intervals.  In the code the `seen` update of src/tpms.py lines
192-196 runs before the gap check of line 199 within the same bin, so the
bin at minute `W+1` refreshes `last_seen` before the gap is tested and the
two events merge into the single interval `[0, W+1]`.  Shown here at
`W = 10`: events at minutes 0 and 9 merge (as specified), but events at
minutes 0 and 11 also merge instead of splitting. -/
theorem c1_window_plus_one_still_merges :
    detect_home_intervals [0, 540000000] 60 10 = some [(0, 540000000)] ∧
    detect_home_intervals [0, 660000000] 60 10 = some [(0, 660000000)] := by
  constructor <;> decide

/-- C2: the code keys evidence bins by minute truncation
(`t.replace(second=0, microsecond=0)`, src/tpms.py line 179) regardless of
`bin_seconds`, not by the spec's `floor((t - epoch) / Δ) * Δ` rule: at
`t = 60 s` with `bin_seconds = 120` the code's key is 60 s while the spec's
is 0.  The aggregation half of the claim does hold: two events in the same
minute accumulate into one bin's count. -/
theorem c2_bin_key_is_minute_not_delta :
    minuteFloor 60000000 = 60000000 ∧
    specBinStart 60000000 (120 * usecPerSec) = 0 ∧
    minuteFloor 60000000 ≠ specBinStart 60000000 (120 * usecPerSec) ∧
    evidenceCount [0, 30000000] 0 = 2 := by
  refine ⟨by decide, by decide, by decide, by decide⟩

/-- C3 counterexample: on an empty event list `detect_home_intervals`
returns the empty interval list normally (src/tpms.py lines 171-172); no
`EmptyInput` error condition exists in the code. -/
theorem c3_empty_input_returns_empty :
    detect_home_intervals [] 60 10 = some [] := by decide

/-- C3 amended: for every `bin_seconds` and `window_minutes`, an empty
event collection makes `detect_home_intervals` return the empty interval
list; the function does not refuse to run. -/
theorem c3_amended_empty_input_returns_nil (b w : Int) :
    detect_home_intervals [] b w = some [] := rfl

/-- C6: events at minutes `[0, 1, 2, 50]` with `window_minutes = 10` and
`bin_seconds = 60` produce exactly the two intervals `[0, 2]` and
`[50, 50]` (in microseconds: `[0, 120000000]` and
`[3000000000, 3000000000]`). -/
theorem c6_example_two_intervals :
    detect_home_intervals [0, 60000000, 120000000, 3000000000] 60 10 =
      some [(0, 120000000), (3000000000, 3000000000)] := by decide

/-- C7 counterexample: the detector reads `times[0]` and `times[-1]`
(src/tpms.py lines 174-175), not the minimum and maximum, so its result
depends on the order of the events, not only on their multiset: the same
two events at minutes 5 and 0 give no interval when supplied unsorted and
one interval when supplied sorted. -/
theorem c7_order_dependence :
    detect_home_intervals [300000000, 0] 60 10 = some [] ∧
    detect_home_intervals [0, 300000000] 60 10 = some [(0, 300000000)] := by
  constructor <;> decide

/-- Exact value of the loop-variable trace when the step is one minute and
the end marker is `k` minutes after the start, for any sufficient fuel. -/
theorem timelineAux_exact : ∀ (k : Nat) (t : Int) (fuel : Nat), k ≤ fuel →
    timelineAux usecPerMin (t + usecPerMin * (k : Int)) fuel t =
      (List.range k).map (fun i : Nat => t + usecPerMin * (i : Int)) := by
  intro k
  induction k with
  | zero =>
    intro t fuel _
    cases fuel with
    | zero => simp [timelineAux]
    | succ m => simp [timelineAux]
  | succ k ih =>
    intro t fuel hf
    cases fuel with
    | zero => omega
    | succ m =>
      have hu : (0:Int) < usecPerMin := by decide
      have hm : k ≤ m := by omega
      have hpos : t < t + usecPerMin * ((k + 1 : Nat) : Int) := by
        have hX : (0:Int) < usecPerMin * ((k + 1 : Nat) : Int) := by
          apply mul_pos hu
          push_cast
          positivity
        omega
      rw [timelineAux, if_pos hpos]
      have he : t + usecPerMin * ((k + 1 : Nat) : Int) =
          (t + usecPerMin) + usecPerMin * (k : Int) := by
        push_cast
        ring
      rw [he, ih (t + usecPerMin) m hm, List.range_succ_eq_map]
      simp only [List.map_cons, List.map_map, Nat.cast_zero, mul_zero, add_zero]
      refine congrArg _ ?_
      refine List.map_congr_left ?_
      intro i _
      simp only [Function.comp]
      push_cast
      ring

/-- C7 amended: for a chronologically sorted non-empty input and the
default 60-second bin step, the loop's bin timeline starts at the minute
bin of the earliest event, ends at the minute bin of the latest event, and
advances gaplessly one minute per step. -/
theorem c7_amended_sorted_timeline_spans (t0 : Int) (rest : List Int)
    (hs : List.Sorted (· ≤ ·) (t0 :: rest)) :
    (timeline (t0 :: rest) 60).head? = some (minuteFloor t0) ∧
    (timeline (t0 :: rest) 60).getLast? =
      some (minuteFloor ((t0 :: rest).getLast (List.cons_ne_nil t0 rest))) ∧
    (timeline (t0 :: rest) 60).Chain' (fun x y => y = x + usecPerMin) := by
  have hu : (0:Int) < usecPerMin := by decide
  set lt := (t0 :: rest).getLast (List.cons_ne_nil t0 rest) with hltdef
  have h0l : t0 ≤ lt := by
    have hmem : lt ∈ t0 :: rest := by
      rw [hltdef]
      exact List.getLast_mem (List.cons_ne_nil t0 rest)
    rcases List.mem_cons.mp hmem with h | h
    · exact le_of_eq h.symm
    · exact (List.sorted_cons.mp hs).1 lt h
  have hAB : t0.fdiv usecPerMin ≤ lt.fdiv usecPerMin := by
    rw [Int.fdiv_eq_ediv _ (by decide), Int.fdiv_eq_ediv _ (by decide)]
    exact Int.ediv_le_ediv (by decide) h0l
  set A := t0.fdiv usecPerMin with hA
  set B := lt.fdiv usecPerMin with hB
  set k : Nat := (B - A).toNat + 1 with hk
  have hkk : (k : Int) = B - A + 1 := by
    rw [hk]
    push_cast
    rw [Int.toNat_of_nonneg (by omega)]
  have hmfa : minuteFloor t0 = A * usecPerMin := rfl
  have hmfb : minuteFloor lt = B * usecPerMin := rfl
  have hend : minuteFloor lt + usecPerMin = minuteFloor t0 + usecPerMin * (k : Int) := by
    rw [hmfa, hmfb, hkk]
    ring
  have hfuel : k ≤ (minuteFloor t0 + usecPerMin * (k : Int) - minuteFloor t0).toNat := by
    have h1 : minuteFloor t0 + usecPerMin * (k : Int) - minuteFloor t0 =
        usecPerMin * (k : Int) := by
      ring
    have h2 : (k : Int) ≤ usecPerMin * (k : Int) := by
      nlinarith [Int.natCast_nonneg k]
    rw [h1]
    omega
  have htl : timeline (t0 :: rest) 60 =
      (List.range k).map (fun i : Nat => minuteFloor t0 + usecPerMin * (i : Int)) := by
    simp only [timeline]
    rw [show (60:Int) * usecPerSec = usecPerMin from by decide]
    rw [← hltdef, hend]
    exact timelineAux_exact k (minuteFloor t0) _ hfuel
  rw [htl]
  refine ⟨?_, ?_, ?_⟩
  · rw [hk, List.range_succ_eq_map]
    simp
  · rw [hk, List.range_succ, List.map_append]
    simp only [List.map_cons, List.map_nil]
    rw [List.getLast?_concat]
    refine congrArg _ ?_
    rw [hmfa, hmfb]
    rw [show (((B - A).toNat : Nat) : Int) = B - A from Int.toNat_of_nonneg (by omega)]
    ring
  · rw [List.chain'_map, hk]
    rw [show (B - A).toNat + 1 = Nat.succ ((B - A).toNat) from rfl]
    rw [List.chain'_range_succ]
    intro i _
    push_cast
    ring

/-- C7 amended witness: the sorted events at minutes 0 and 5 give the
timeline of minute bins 0, 1, 2, 3, 4, 5, whose endpoints and gapless
stepping are discharged. -/
theorem c7_amended_sorted_timeline_spans_witness :
    (timeline ((0:Int) :: [300000000]) 60).head? = some (minuteFloor 0) ∧
    (timeline ((0:Int) :: [300000000]) 60).getLast? =
      some (minuteFloor (((0:Int) :: [300000000]).getLast (List.cons_ne_nil 0 [300000000]))) ∧
    (timeline ((0:Int) :: [300000000]) 60).Chain' (fun x y => y = x + usecPerMin) :=
  c7_amended_sorted_timeline_spans 0 [300000000] (by decide)

/-- Modelled from the spec: the Decay-Hysteresis policy (Policy B, spec
§4.2) has no implementation under src/; its per-run accumulator per the
spec is the continuous score `S`, the `AWAY`/`HOME` state tag, the two
consecutive-hit hold counters, and the pending interval start. -/
structure BState where
  score : Rat
  home : Bool
  enterRun : Nat
  exitRun : Nat
  curStart : Nat
  intervals : List (Nat × Nat)
deriving Repr, DecidableEq

/-- Modelled from the spec: one per-bin update of the Decay-Hysteresis
policy (spec §4.2 Policy B, steps 1-4), at bin index `i` with near-test
result `near`.  In order: `S ← S × decay`; if near, `S ← min(1, S +
increment)`; in `AWAY`, a bin with `S ≥ enter_score` advances the
consecutive-hit counter and reaching `enter_hold` commits `HOME` with the
start back-dated by `enter_hold − 1` bins, while `S < enter_score` resets
the counter; in `HOME` the symmetric rule with `exit_score`/`exit_hold`
closes the interval back-dated by `exit_hold − 1` bins.  The decay factor
`exp(-Δ/τ)` is abstracted as the rational parameter `d` (it lies in `(0,1)`
for positive `Δ` and `τ`) since `exp` is transcendental. -/
def decayStep (d inc enterScore exitScore : Rat) (eh xh : Nat) (i : Nat)
    (near : Bool) (s : BState) : BState :=
  let s1 := s.score * d
  let s2 := if near then min 1 (s1 + inc) else s1
  if s.home then
    if s2 < exitScore then
      if xh ≤ s.exitRun + 1 then
        { score := s2, home := false, enterRun := 0, exitRun := 0, curStart := 0,
          intervals := s.intervals ++ [(s.curStart, i - (xh - 1))] }
      else { s with score := s2, exitRun := s.exitRun + 1 }
    else { s with score := s2, exitRun := 0 }
  else
    if enterScore ≤ s2 then
      if eh ≤ s.enterRun + 1 then
        { score := s2, home := true, enterRun := 0, exitRun := 0,
          curStart := i - (eh - 1), intervals := s.intervals }
      else { s with score := s2, enterRun := s.enterRun + 1 }
    else { s with score := s2, enterRun := 0 }

/-- Modelled from the spec: the Decay-Hysteresis stepping loop, one
state-machine update per bin in chronological order (spec §4.2), `i` being
the index of the next bin. -/
def decayRun (d inc enterScore exitScore : Rat) (eh xh : Nat) :
    Nat → List Bool → BState → BState
  | _, [], s => s
  | i, b :: rest, s =>
    decayRun d inc enterScore exitScore eh xh (i + 1) rest
      (decayStep d inc enterScore exitScore eh xh i b s)

/-- Modelled from the spec: the Decay-Hysteresis detector over a timeline
of per-bin near-test results, starting from score 0 in `AWAY`; at end of
stream, if still `HOME`, the interval is closed at the timeline's end
marker (spec §4.2 step 5). -/
def decayDetect (bins : List Bool) (d inc enterScore exitScore : Rat)
    (eh xh : Nat) : List (Nat × Nat) :=
  let fin := decayRun d inc enterScore exitScore eh xh 0 bins
    { score := 0, home := false, enterRun := 0, exitRun := 0, curStart := 0,
      intervals := [] }
  if fin.home then fin.intervals ++ [(fin.curStart, bins.length)]
  else fin.intervals

/-- The `AWAY` safety condition: nonnegative score strictly below the entry
threshold, state `AWAY`, no intervals emitted. -/
def AwayInv (enterScore : Rat) (s : BState) : Prop :=
  0 ≤ s.score ∧ s.score < enterScore ∧ s.home = false ∧ s.intervals = []

/-- A far bin seen from `AWAY` with score below the entry threshold only
decays the score and resets the hit counter. -/
theorem decayStep_far_away (d inc enterScore exitScore : Rat) (eh xh i : Nat)
    (s : BState) (hd0 : 0 ≤ d) (hd1 : d ≤ 1)
    (h0 : 0 ≤ s.score) (h1 : s.score < enterScore) (hh : s.home = false) :
    decayStep d inc enterScore exitScore eh xh i false s =
      { s with score := s.score * d, enterRun := 0 } := by
  have hsd : s.score * d ≤ s.score := mul_le_of_le_one_right h0 hd1
  have hlt : ¬enterScore ≤ s.score * d := not_le.mpr (lt_of_le_of_lt hsd h1)
  simp [decayStep, hh, hlt]

/-- Far bins preserve the `AWAY` safety condition. -/
theorem decayRun_far_away (d inc enterScore exitScore : Rat) (eh xh : Nat)
    (hd0 : 0 ≤ d) (hd1 : d ≤ 1) :
    ∀ (m i : Nat) (s : BState), AwayInv enterScore s →
      AwayInv enterScore
        (decayRun d inc enterScore exitScore eh xh i (List.replicate m false) s) := by
  intro m
  induction m with
  | zero => intro i s h; simpa [decayRun] using h
  | succ mm ih =>
    intro i s h
    obtain ⟨h0, h1, hh, hi⟩ := h
    rw [List.replicate_succ]
    simp only [decayRun]
    apply ih
    rw [decayStep_far_away d inc enterScore exitScore eh xh i s hd0 hd1 h0 h1 hh]
    exact ⟨mul_nonneg h0 hd0, lt_of_le_of_lt (mul_le_of_le_one_right h0 hd1) h1, hh, hi⟩

/-- Starting from score exactly zero in `AWAY`, a near bin raises the score
only to `min 1 increment`, which stays below the entry threshold whenever
`increment < enter_score`, so the hit counter is reset, not advanced. -/
theorem decayStep_near_zero (d inc enterScore exitScore : Rat) (eh xh i : Nat)
    (s : BState) (hinc0 : 0 ≤ inc) (hie : inc < enterScore)
    (hs : s.score = 0) (hh : s.home = false) :
    decayStep d inc enterScore exitScore eh xh i true s =
      { s with score := min 1 inc, enterRun := 0 } := by
  have h1 : s.score * d = 0 := by rw [hs]; ring
  have hmin : ¬enterScore ≤ min 1 inc :=
    not_le.mpr (lt_of_le_of_lt (min_le_right 1 inc) hie)
  simp [decayStep, hh, h1, hmin]

/-- Stepping the detector over bins split into two runs. -/
theorem decayRun_append (d inc enterScore exitScore : Rat) (eh xh : Nat) :
    ∀ (l1 l2 : List Bool) (i : Nat) (s : BState),
      decayRun d inc enterScore exitScore eh xh i (l1 ++ l2) s =
        decayRun d inc enterScore exitScore eh xh (i + l1.length) l2
          (decayRun d inc enterScore exitScore eh xh i l1 s) := by
  intro l1
  induction l1 with
  | nil => intro l2 i s; simp [decayRun]
  | cons b rest ih =>
    intro l2 i s
    simp only [List.cons_append, decayRun, List.length_cons, List.append_eq]
    rw [ih]
    have he : i + 1 + rest.length = i + (rest.length + 1) := by omega
    rw [he]

/-- From the all-zero start state, far bins leave the state untouched. -/
theorem decayRun_far_zero (d inc enterScore exitScore : Rat) (eh xh : Nat)
    (hes : 0 < enterScore) :
    ∀ (m i : Nat),
      decayRun d inc enterScore exitScore eh xh i (List.replicate m false)
        { score := 0, home := false, enterRun := 0, exitRun := 0, curStart := 0,
          intervals := [] } =
        { score := 0, home := false, enterRun := 0, exitRun := 0, curStart := 0,
          intervals := [] } := by
  intro m
  induction m with
  | zero => intro i; simp [decayRun]
  | succ mm ih =>
    intro i
    rw [List.replicate_succ]
    simp only [decayRun]
    have hstep : decayStep d inc enterScore exitScore eh xh i false
        { score := 0, home := false, enterRun := 0, exitRun := 0, curStart := 0,
          intervals := [] } =
        { score := 0, home := false, enterRun := 0, exitRun := 0, curStart := 0,
          intervals := [] } := by
      simp [decayStep, not_le.mpr hes]
    rw [hstep]
    exact ih (i + 1)

/-- C9 counterexample: in the spec-modelled Decay-Hysteresis policy the
consecutive-hit counter advances whenever the *score* is past the entry
threshold (spec §4.2 step 4), not only on near bins, so a single isolated
near bin surrounded by far bins *can* commit `HOME` with `enter_hold = 2 > 1`
when the increment exceeds the entry threshold: with `decay = 9/10`,
`increment = 1/5`, `enter_score = 1/10`, `exit_score = 1/20`,
`enter_hold = 2`, `exit_hold = 1`, the timeline far-near-far-far yields the
interval `(1, 4)` rather than the empty list. -/
theorem c9_single_near_bin_can_enter_home :
    decayDetect [false, true, false, false] (9/10) (1/5) (1/10) (1/20) 2 1 =
      [(1, 4)] := by
  norm_num [decayDetect, decayRun, decayStep, min_def]

/-- C9 amended: with `increment < enter_score` (as in every configuration
the spec exhibits, e.g. increment 0.2 against enter_score 0.7), a single
isolated near bin surrounded only by far bins never triggers a `HOME`
transition and the returned interval list is empty. -/
theorem c9_amended_hysteresis_suppresses_single_bin
    (d inc enterScore exitScore : Rat) (eh xh n m : Nat)
    (hd0 : 0 ≤ d) (hd1 : d ≤ 1) (hinc0 : 0 ≤ inc) (hie : inc < enterScore)
    (heh : 1 < eh) :
    decayDetect (List.replicate n false ++ true :: List.replicate m false)
      d inc enterScore exitScore eh xh = [] := by
  have hes : 0 < enterScore := lt_of_le_of_lt hinc0 hie
  simp only [decayDetect]
  rw [decayRun_append]
  rw [List.length_replicate]
  rw [decayRun_far_zero d inc enterScore exitScore eh xh hes n 0]
  simp only [decayRun, Nat.zero_add]
  rw [decayStep_near_zero d inc enterScore exitScore eh xh n _ hinc0 hie rfl rfl]
  have hfin := decayRun_far_away d inc enterScore exitScore eh xh hd0 hd1 m (n + 1)
    { score := min 1 inc, home := false, enterRun := 0, exitRun := 0, curStart := 0,
      intervals := [] }
    ⟨le_min zero_le_one hinc0, lt_of_le_of_lt (min_le_right 1 inc) hie, rfl, rfl⟩
  obtain ⟨_, _, hh, hi⟩ := hfin
  simp [hh, hi]

/-- C9 amended witness: one far bin, the near bin, two far bins, with
decay 1/2, increment 1/5, enter_score 7/10, exit_score 1/10, enter_hold 2,
exit_hold 1: no interval. -/
theorem c9_amended_hysteresis_suppresses_single_bin_witness :
    decayDetect (List.replicate 1 false ++ true :: List.replicate 2 false)
      (1/2) (1/5) (7/10) (1/10) 2 1 = [] :=
  c9_amended_hysteresis_suppresses_single_bin (1/2) (1/5) (7/10) (1/10) 2 1 1 2
    (by norm_num) (by norm_num) (by norm_num) (by norm_num) (by norm_num)

/-- C8: `detect_home_intervals` performs no parameter validation: with
`bin_seconds = 0` it enters its stepping loop and never terminates (the
loop variable never advances, so the guard of src/tpms.py line 189 stays
true for ever), instead of rejecting the parameter eagerly.  The second
conjunct states divergence directly: for every fuel bound the loop is still
running. -/
theorem c8_nonpositive_step_diverges :
    detect_home_intervals [0] 0 10 = none ∧
    ∀ n : Nat, runLoop [0] 600000000 0 60000000 n 0
      { inHome := false, firstSeen := none, lastSeen := none, intervals := [] } = none := by
  refine ⟨detect_nonpos_step_none 0 [] 0 10 (by decide) (by decide), ?_⟩
  intro n
  exact runLoop_none_of_nonpos _ _ _ _ le_rfl n 0 _ (by decide)

